import Mathlib

/-!
Shallow embedding of the Fast Todos task engine (`src/main.ts`).

Text is modelled as `List Char`.  Each JavaScript regular expression used by
the source is embedded as a bespoke executable function whose behaviour
matches the leftmost-match / greedy-with-backtracking semantics of the
original pattern; the source regex is quoted in the doc comment of each
function.  The Obsidian host (vault, editor, DOM) is out of scope per the
spec; where the code reads from it, the read result is a parameter.
-/

/-- JS `\s` for the character set occurring in documents (space, tab, CR, LF,
vertical tab, form feed).  Used by `trim`, `\s*` and `\s+` embeddings. -/
def jsWhite (c : Char) : Bool :=
  c == ' ' || c == '\t' || c == '\n' || c == '\r' || c == '\x0b' || c == '\x0c'

/-- Characters matched by the checkbox-prefix class `[-*+\d\.\s]` (plus `\s`
of the surrounding `\s*`s, which it subsumes). -/
def taskMarkChars (c : Char) : Bool :=
  jsWhite c || c == '-' || c == '*' || c == '+' || c.isDigit || c == '.'

/-- Port of `String.prototype.toLowerCase` (ASCII-relevant part). -/
def toLowerList (l : List Char) : List Char := l.map Char.toLower

/-- Port of `String.prototype.trim`: strip JS whitespace from both ends. -/
def jsTrim (l : List Char) : List Char :=
  ((l.dropWhile jsWhite).reverse.dropWhile jsWhite).reverse

/-- Port of `String.prototype.trimEnd`. -/
def jsTrimEnd (l : List Char) : List Char :=
  (l.reverse.dropWhile jsWhite).reverse

/-- Case-insensitive "starts with" (the `/i` flag on a literal alternative). -/
def ciHasPfx : List Char → List Char → Bool
  | [], _ => true
  | _ :: _, [] => false
  | p :: ps, c :: cs => (p.toLower == c.toLower) && ciHasPfx ps cs

/-- Split a string at its first `]`: returns the (`]`-free) part before it and
the part after it.  This is how a greedy `[^\]]*\]` / `[^\]]+\]` tail consumes
input: the bracket that closes the match is always the first `]` ahead. -/
def splitRB : List Char → Option (List Char × List Char)
  | [] => none
  | c :: r =>
    if c = ']' then some ([], r)
    else (splitRB r).map (fun p => (c :: p.1, p.2))

/-- Capture of `:+\s*([^\]]+)\]` (the value part of the completion-tag regex
`/\[(completed|completion):+\s*([^\]]+)\]/i`, `src/main.ts:482`), with the
backtracking of the greedy `:+` and `\s*` resolved:  after the maximal colon
run, the capture is everything up to the first `]` minus leading whitespace;
if that is empty, the innermost quantifier backs off first, so an all-blank
value captures its last blank, and an all-colon value captures a `:`. -/
def colonCapture (l : List Char) : Option (List Char) :=
  let cs := l.takeWhile (fun c => c == ':')
  if cs.length = 0 then none
  else
    match splitRB (l.drop cs.length) with
    | none => none
    | some (front, _) =>
      if front = [] then
        if 2 ≤ cs.length then some [':'] else none
      else
        let m := front.dropWhile jsWhite
        if m = [] then some (front.drop (front.length - 1)) else some m

/-- One attempt of `/\[(completed|completion):+\s*([^\]]+)\]/i` at the current
position (`src/main.ts:482,157`); returns the captured value. -/
def matchCompletedAt (l : List Char) : Option (List Char) :=
  match l with
  | '[' :: r =>
    if ciHasPfx "completed".data r then colonCapture (r.drop 9)
    else if ciHasPfx "completion".data r then colonCapture (r.drop 10)
    else none
  | _ => none

inductive Priority where
  | high
  | normal
  | low
deriving DecidableEq

/-- The string value of the `priority` field (`'high' | 'normal' | 'low'`). -/
def priorityChars : Priority → List Char
  | Priority.high => "high".data
  | Priority.normal => "normal".data
  | Priority.low => "low".data

/-- One attempt of `/\[priority:+\s*(high|normal|low)\]/i` at the current
position (`src/main.ts:483,158`).  After the greedy `:+` and `\s*` no
backtracking can succeed (a shorter run re-exposes a colon or a blank, which
starts none of the literals), so the literal must follow the maximal runs. -/
def matchPriorityAt (l : List Char) : Option Priority :=
  match l with
  | '[' :: r =>
    if ciHasPfx "priority".data r then
      let s := r.drop 8
      let cs := s.takeWhile (fun c => c == ':')
      if cs.length = 0 then none
      else
        let g := (s.drop cs.length).dropWhile jsWhite
        if ciHasPfx "high]".data g then some Priority.high
        else if ciHasPfx "normal]".data g then some Priority.normal
        else if ciHasPfx "low]".data g then some Priority.low
        else none
    else none
  | _ => none

/-- Leftmost-match scan of a non-anchored regex: try the pattern at every
position, left to right (`String.prototype.match` without `/g`). -/
def scanFirst (f : List Char → Option α) : List Char → Option α
  | [] => none
  | c :: r =>
    match f (c :: r) with
    | some a => some a
    | none => scanFirst f r

/-- Port of `rawContent.match(/\[(completed|completion):+\s*([^\]]+)\]/i)`, group 2. -/
def findCompleted (l : List Char) : Option (List Char) :=
  scanFirst matchCompletedAt l

/-- Port of `rawContent.match(/\[priority:+\s*(high|normal|low)\]/i)`, group 1,
lower-cased (the match is case-insensitive; the code lower-cases it). -/
def findPriority (l : List Char) : Option Priority :=
  scanFirst matchPriorityAt l

/-- One attempt of `/\[([ xX])\]/` at the current position. -/
def isBoxAt (l : List Char) : Option Char :=
  match l with
  | '[' :: c :: ']' :: _ =>
    if c == ' ' || c == 'x' || c == 'X' then some c else none
  | _ => none

/-- Port of `line.match(/\[([ xX])\]/)`, group 1 (`src/main.ts:133,465`). -/
def findStatusBox (l : List Char) : Option Char :=
  scanFirst isBoxAt l

theorem splitRB_len {l : List Char} : ∀ {f t : List Char},
    splitRB l = some (f, t) → t.length < l.length := by
  induction l with
  | nil => intro f t h; simp [splitRB] at h
  | cons c r ih =>
    intro f t h
    by_cases hc : c = ']'
    · rw [splitRB, if_pos hc] at h
      simp at h
      rw [List.length_cons, ← h.2]
      exact Nat.lt_succ_self _
    · rw [splitRB, if_neg hc] at h
      cases hr : splitRB r with
      | none => rw [hr] at h; simp at h
      | some p =>
        obtain ⟨p1, p2⟩ := p
        rw [hr] at h
        simp at h
        have := ih hr
        rw [List.length_cons, ← h.2]
        exact Nat.lt_succ_of_lt this

/-- Tail `:+[^\]]+\]` of the tag-stripping regex (after a recognized key);
returns the input remaining after the matched tag.  Greedy `:+` with
backtracking: the value must be non-empty, but a surplus colon can serve as
the value, so an all-colon middle still matches when there are two or more
colons. -/
def stripColonRest (l : List Char) : Option (List Char) :=
  let cs := l.takeWhile (fun c => c == ':')
  if cs.length = 0 then none
  else
    match splitRB (l.drop cs.length) with
    | none => none
    | some (front, rest) =>
      if front = [] then (if 2 ≤ cs.length then some rest else none)
      else some rest

/-- One attempt of `/\[(created|completed|completion|due|priority):+[^\]]+\]/gi`
(`src/main.ts:160,485`) at the current position; the keys are pairwise
prefix-incompatible, so at most one alternative can apply at a position. -/
def matchStripAt (l : List Char) : Option (List Char) :=
  match l with
  | '[' :: r =>
    if ciHasPfx "created".data r then stripColonRest (r.drop 7)
    else if ciHasPfx "completed".data r then stripColonRest (r.drop 9)
    else if ciHasPfx "completion".data r then stripColonRest (r.drop 10)
    else if ciHasPfx "due".data r then stripColonRest (r.drop 3)
    else if ciHasPfx "priority".data r then stripColonRest (r.drop 8)
    else none
  | _ => none

theorem stripColonRest_len {l rest : List Char}
    (h : stripColonRest l = some rest) : rest.length < l.length := by
  unfold stripColonRest at h
  set cs := l.takeWhile (fun c => c == ':') with hcs
  by_cases h0 : cs.length = 0
  · simp [h0] at h
  · simp only [h0, if_false] at h
    cases hs : splitRB (l.drop cs.length) with
    | none => rw [hs] at h; simp at h
    | some p =>
      obtain ⟨front, rest'⟩ := p
      rw [hs] at h
      have hlt : rest'.length < (l.drop cs.length).length := splitRB_len hs
      have hle : (l.drop cs.length).length ≤ l.length := by
        simp [List.length_drop]
      have : rest' = rest := by
        by_cases hf : front = []
        · by_cases h2 : 2 ≤ cs.length
          · simp [hf, h2] at h; exact h
          · simp [hf, h2] at h
        · simp [hf] at h; exact h
      subst this
      exact Nat.lt_of_lt_of_le hlt hle

theorem matchStripAt_len {l rest : List Char}
    (h : matchStripAt l = some rest) : rest.length < l.length := by
  match l with
  | [] => simp [matchStripAt] at h
  | c :: r =>
    have step : ∀ k, stripColonRest (r.drop k) = some rest →
        rest.length < (c :: r).length := by
      intro k hk
      have h1 := stripColonRest_len hk
      have h2 : (r.drop k).length ≤ r.length := by simp [List.length_drop]
      simp only [List.length_cons]
      omega
    by_cases hc : c = '['
    · subst hc
      simp only [matchStripAt] at h
      split at h
      · exact step _ h
      · split at h
        · exact step _ h
        · split at h
          · exact step _ h
          · split at h
            · exact step _ h
            · split at h
              · exact step _ h
              · simp at h
    · have : matchStripAt (c :: r) = none := by
        unfold matchStripAt
        split
        · rename_i r2 heq
          exact absurd (List.cons.injEq .. ▸ heq).1 hc
        · rfl
      rw [this] at h
      simp at h

/-- Global replace with `''` of
`/\[(created|completed|completion|due|priority):+[^\]]+\]/gi`
(`src/main.ts:160,485`): scan left to right, drop every match, resume after
each match. -/
def stripTags (l : List Char) : List Char :=
  match l with
  | [] => []
  | c :: r =>
    match h : matchStripAt (c :: r) with
    | some rest => stripTags rest
    | none => c :: stripTags r
termination_by l.length
decreasing_by
  · exact matchStripAt_len h
  · simp

/-- One attempt of `/\[(?:completed|completion):\s*[^\]]*\]/gi` (the
renderer's `completionRegex`, `src/main.ts:288`, also inlined at
`src/main.ts:705` and used once at `src/main.ts:18`): a single colon and a
possibly-empty value; returns the input remaining after the tag. -/
def matchCompletionTagAt (l : List Char) : Option (List Char) :=
  match l with
  | '[' :: r =>
    if ciHasPfx "completed".data r then
      match r.drop 9 with
      | ':' :: r2 => (splitRB r2).map (fun p => p.2)
      | _ => none
    else if ciHasPfx "completion".data r then
      match r.drop 10 with
      | ':' :: r2 => (splitRB r2).map (fun p => p.2)
      | _ => none
    else none
  | _ => none

theorem matchCompletionTagAt_len {l rest : List Char}
    (h : matchCompletionTagAt l = some rest) : rest.length < l.length := by
  match l with
  | [] => simp [matchCompletionTagAt] at h
  | c :: r =>
    have step : ∀ k, ((match r.drop k with
        | ':' :: r2 => (splitRB r2).map (fun p => p.2)
        | _ => none) = some rest) → rest.length < (c :: r).length := by
      intro k hk
      split at hk
      · rename_i r2 heq
        cases hs : splitRB r2 with
        | none => rw [hs] at hk; simp at hk
        | some p =>
          obtain ⟨p1, p2⟩ := p
          rw [hs] at hk
          simp at hk
          subst hk
          have h1 := splitRB_len hs
          have h2 : (':' :: r2).length ≤ (r.drop k).length := by
            rw [← heq]
          have h3 : (r.drop k).length ≤ r.length := by simp [List.length_drop]
          simp only [List.length_cons] at h2 ⊢
          omega
      · simp at hk
    by_cases hc : c = '['
    · subst hc
      simp only [matchCompletionTagAt] at h
      split at h
      · exact step _ h
      · split at h
        · exact step _ h
        · simp at h
    · have : matchCompletionTagAt (c :: r) = none := by
        unfold matchCompletionTagAt
        split
        · rename_i r2 heq
          exact absurd (List.cons.injEq .. ▸ heq).1 hc
        · rfl
      rw [this] at h
      simp at h

/-- Global replace with `''` of `/\[(?:completed|completion):\s*[^\]]*\]/gi`:
`rawContent.replace(this.completionRegex, '')` (`src/main.ts:738`) and
`finalLine.replace(/\[(?:completed|completion):\s*[^\]]*\]/gi, '')`
(`src/main.ts:705,205`). -/
def stripCompletionAll (l : List Char) : List Char :=
  match l with
  | [] => []
  | c :: r =>
    match h : matchCompletionTagAt (c :: r) with
    | some rest => stripCompletionAll rest
    | none => c :: stripCompletionAll r
termination_by l.length
decreasing_by
  · exact matchCompletionTagAt_len h
  · simp

/-- The anchored checkbox prefix `^(\s*[-*+\d\.\s]*\s*\[([ xX])\])(.*)`
(`src/main.ts:154,479`; the variants at `39,182,694,728` add `\s*` after the
`\]`, recovered separately from the returned remainder).  `\s` is contained
in the bracket class, so the three greedy pieces jointly consume exactly the
maximal run of marker characters, and backtracking cannot place the `\[`
earlier: every earlier position still holds a marker character, never `[`.
Returns (marker run, status char, text after the `]`). -/
def matchTaskBox (l : List Char) : Option (List Char × Char × List Char) :=
  let a := l.takeWhile taskMarkChars
  match l.drop a.length with
  | '[' :: c :: ']' :: rest =>
    if c == ' ' || c == 'x' || c == 'X' then some (a, c, rest) else none
  | _ => none

/-- The task record (`interface FastTask`, `src/main.ts:5`). -/
structure FastTask where
  text : List Char
  cleanText : List Char
  completed : Bool
  line : Nat
  path : List Char
  completedDate : Option (List Char)
  priority : Priority
deriving DecidableEq

/-- Port of `parseTaskLine` (`src/main.ts:478-496`, same body at `153-171`). -/
def parseTaskLine (line : List Char) (lineNum : Nat) (path : List Char)
    (isCompleted : Bool) : FastTask :=
  let rawContent :=
    match matchTaskBox line with
    | some (_, _, rest) => rest
    | none => line
  let completedMatch := findCompleted rawContent
  let priorityMatch := findPriority rawContent
  let displayDescription := jsTrim (stripTags rawContent)
  { text := line
    cleanText :=
      if displayDescription = [] then "(No Description)".data
      else displayDescription
    completed := isCompleted
    line := lineNum
    path := path
    completedDate := completedMatch
    priority := priorityMatch.getD Priority.normal }

/-- A caller's parse of one line (`src/main.ts:131-135`): pre-match the
checkbox prefix, read the status from the first `[ ]`/`[x]`/`[X]` box in the
line, then run `parseTaskLine`.  Non-task lines yield `none`. -/
def parseLine (line : List Char) (lineNum : Nat) (path : List Char) :
    Option FastTask :=
  match matchTaskBox line with
  | none => none
  | some _ =>
    let isCompleted :=
      match findStatusBox line with
      | some c => c.toLower == 'x'
      | none => false
    some (parseTaskLine line lineNum path isCompleted)

/-- Port of `String.prototype.replace(pat, '')` with a string pattern: remove the
first occurrence of `pat` (used with `'limit'`, `'group by'`, `'sort by'`,
`'path includes '`, `'tag includes '`, `'priority is '`, …). -/
def replaceFirst (pat : List Char) : List Char → List Char
  | [] => []
  | c :: r =>
    if pat.isPrefixOf (c :: r) then (c :: r).drop pat.length
    else c :: replaceFirst pat r

/-- Port of `String.prototype.includes`: substring test. -/
def listContains : List Char → List Char → Bool
  | [], pat => pat.isEmpty
  | c :: r, pat => pat.isPrefixOf (c :: r) || listContains r pat

/-- The task address `` `${task.path}:${task.line}` `` (`src/main.ts:615`). -/
def taskId (t : FastTask) : List Char :=
  t.path ++ ':' :: (toString t.line).data

/-- Port of `evaluateAtom` (`src/main.ts:498-528`).  `cds` is the renderer's
`activeCountdowns` set, `today` is `moment().format('YYYY-MM-DD')`.  Branches
appear in source order; the `priority is not` branch is syntactically present
after the `priority is` branch, as in the source. -/
def evaluateAtom (cds : List (List Char)) (today : List Char)
    (atom : List Char) (t : FastTask) : Bool :=
  let low := jsTrim (toLowerList atom)
  if low = "not done".data then
    !t.completed || cds.contains (taskId t)
  else if low = "done".data ∨ low = "is done".data then
    t.completed
  else if low = "done today".data then
    t.completed && t.completedDate == some today
  else if "path includes ".data.isPrefixOf low then
    listContains (toLowerList t.path) (jsTrim (replaceFirst "path includes ".data low))
  else if "tag includes ".data.isPrefixOf low then
    listContains (toLowerList t.text) (jsTrim (replaceFirst "tag includes ".data low))
  else if "priority is ".data.isPrefixOf low then
    priorityChars t.priority == jsTrim (replaceFirst "priority is ".data low)
  else if "priority is not ".data.isPrefixOf low then
    priorityChars t.priority != jsTrim (replaceFirst "priority is not ".data low)
  else true

/-- The guard conditions of `evaluateAtom`'s recognized-atom branches, i.e.
the atom patterns listed by the spec (`priority is not <level>` begins with
`priority is `, so a separate disjunct would be redundant). -/
def recognizedAtom (atom : List Char) : Bool :=
  let low := jsTrim (toLowerList atom)
  if low = "not done".data then true
  else if low = "done".data ∨ low = "is done".data then true
  else if low = "done today".data then true
  else if "path includes ".data.isPrefixOf low then true
  else if "tag includes ".data.isPrefixOf low then true
  else if "priority is ".data.isPrefixOf low then true
  else false

/-- One attempt of the split separator `/\s+OR\s+/` (or `/\s+AND\s+/`) at the
current position (`src/main.ts:559,563`); returns the input after the
separator.  The greedy `\s+` runs must be maximal: stopping a run early
re-exposes a blank, which neither the keyword's first letter nor the end of
the match can absorb. -/
def matchSepAt (kw : List Char) (l : List Char) : Option (List Char) :=
  let w := l.takeWhile jsWhite
  if w.length = 0 then none
  else
    let r := l.drop w.length
    if kw.isPrefixOf r then
      let r2 := r.drop kw.length
      let w2 := r2.takeWhile jsWhite
      if w2.length = 0 then none else some (r2.drop w2.length)
    else none

theorem takeWhileLenLe (p : α → Bool) (l : List α) :
    (l.takeWhile p).length ≤ l.length := by
  induction l with
  | nil => simp
  | cons c r ih =>
    rw [List.takeWhile_cons]
    by_cases h : p c
    · simp only [h, if_true, List.length_cons]
      omega
    · simp [h]

theorem matchSepAt_len {kw l rest : List Char}
    (h : matchSepAt kw l = some rest) : rest.length < l.length := by
  simp only [matchSepAt] at h
  by_cases h0 : (l.takeWhile jsWhite).length = 0
  · rw [if_pos h0] at h; simp at h
  · rw [if_neg h0] at h
    by_cases h1 : kw.isPrefixOf (l.drop (l.takeWhile jsWhite).length)
    · rw [if_pos h1] at h
      by_cases h2 :
          (((l.drop (l.takeWhile jsWhite).length).drop kw.length).takeWhile
            jsWhite).length = 0
      · rw [if_pos h2] at h; simp at h
      · rw [if_neg h2] at h
        simp at h
        subst h
        have ht : (l.takeWhile jsWhite).length ≤ l.length :=
          takeWhileLenLe jsWhite l
        simp [List.length_drop]
        omega
    · rw [if_neg h1] at h; simp at h

/-- Port of `String.prototype.split` with the separator regex `/\s+OR\s+/` (resp.
`/\s+AND\s+/`): scan left to right, cut at every separator match, resume
after each match. -/
def splitSep (kw : List Char) (l : List Char) : List (List Char) :=
  match l with
  | [] => [[]]
  | c :: r =>
    match h : matchSepAt kw (c :: r) with
    | some rest => [] :: splitSep kw rest
    | none =>
      match splitSep kw r with
      | [] => [[c]]
      | h1 :: t1 => (c :: h1) :: t1
termination_by l.length
decreasing_by
  · exact matchSepAt_len h
  · simp

/-- Port of `source.split('\n')`. -/
def splitOnNl (l : List Char) : List (List Char) :=
  match l with
  | [] => [[]]
  | c :: r =>
    let rest := splitOnNl r
    if c = '\n' then [] :: rest
    else
      match rest with
      | [] => [[c]]
      | h :: t => (c :: h) :: t

/-- Port of `lines.join('\n')`. -/
def joinNl (ls : List (List Char)) : List Char :=
  List.intercalate ['\n'] ls

/-- Leading decimal digits as a number, `none` when there are none. -/
def digitsVal (l : List Char) : Option Nat :=
  let ds := l.takeWhile Char.isDigit
  if ds.length = 0 then none
  else some (ds.foldl (fun a c => a * 10 + (c.toNat - 48)) 0)

/-- Port of `parseInt` (radix 10): skip leading whitespace, optional sign, then
leading digits; `NaN` (here `none`) when no digit follows. -/
def jsParseInt (l : List Char) : Option Int :=
  match l.dropWhile jsWhite with
  | '-' :: r => (digitsVal r).map (fun n => -(n : Int))
  | '+' :: r => (digitsVal r).map (fun n => (n : Int))
  | r => (digitsVal r).map (fun n => (n : Int))

/-- Port of `Array.prototype.slice(0, n)`: first `n` entries when `n ≥ 0`, all but
the last `-n` entries when `n < 0`. -/
def jsSlice0 (n : Int) (l : List α) : List α :=
  if 0 ≤ n then l.take n.toNat else l.take (l.length - (-n).toNat)

/-- The compiled query block (`config` in `parseConfig`,
`src/main.ts:532-537`). -/
structure TodoConfig where
  filters : List (FastTask → Bool)
  limit : Option Int
  groupBy : List Char
  sortBy : List Char

/-- One iteration of `parseConfig`'s line loop (`src/main.ts:539-567`). -/
def parseConfigStep (cds : List (List Char)) (today : List Char)
    (config : TodoConfig) (line : List Char) : TodoConfig :=
  let lowLine := toLowerList line
  if "limit".data.isPrefixOf lowLine then
    match jsParseInt (jsTrim (replaceFirst "limit".data lowLine)) with
    | some n => { config with limit := some n }
    | none => config
  else if "group by".data.isPrefixOf lowLine then
    { config with groupBy := jsTrim (replaceFirst "group by".data lowLine) }
  else if "sort by".data.isPrefixOf lowLine then
    { config with sortBy := jsTrim (replaceFirst "sort by".data lowLine) }
  else
    { config with
        filters := config.filters ++
          [fun t =>
            (splitSep "OR".data line).any (fun orPart =>
              (splitSep "AND".data orPart).all (fun andPart =>
                evaluateAtom cds today andPart t))] }

/-- The trimmed non-blank lines of a query block (`src/main.ts:531`). -/
def configLines (source : List Char) : List (List Char) :=
  ((splitOnNl source).map jsTrim).filter (fun l => decide (0 < l.length))

/-- Port of `parseConfig` (`src/main.ts:530-569`). -/
def parseConfig (cds : List (List Char)) (today : List Char)
    (source : List Char) : TodoConfig :=
  (configLines source).foldl (parseConfigStep cds today)
    { filters := [], limit := none, groupBy := [], sortBy := [] }

/-- The overall filter predicate applied by `render`:
`config.filters.every(filter => filter(t))` (`src/main.ts:370-372`). -/
def configPred (cfg : TodoConfig) (t : FastTask) : Bool :=
  cfg.filters.all (fun f => f t)

/-- Whether a config line is consumed as a directive rather than pushed as a
filter (the three `continue` branches of the loop). -/
def isDirectiveLine (line : List Char) : Bool :=
  let lowLine := toLowerList line
  "limit".data.isPrefixOf lowLine || "group by".data.isPrefixOf lowLine ||
    "sort by".data.isPrefixOf lowLine

/-- The OR-of-ANDs reading of one filter line: some OR-alternative has all of
its AND-atoms true (`src/main.ts:559-565`). -/
def lineHolds (cds : List (List Char)) (today : List Char)
    (line : List Char) (t : FastTask) : Bool :=
  (splitSep "OR".data line).any (fun orPart =>
    (splitSep "AND".data orPart).all (fun andPart =>
      evaluateAtom cds today andPart t))

/-- The sort weights `{ high: 3, normal: 2, low: 1 }` (`src/main.ts:378`);
the `|| 2` fallback is unreachable since every record's priority is one of
the three keys. -/
def priWeight : Priority → Int
  | Priority.high => 3
  | Priority.normal => 2
  | Priority.low => 1

/-- Lexicographic string comparison standing in for `localeCompare`
(`src/main.ts:383-385`); no claim depends on collation details. -/
def cmpChars : List Char → List Char → Int
  | [], [] => 0
  | [], _ :: _ => -1
  | _ :: _, [] => 1
  | a :: as, b :: bs =>
    if a < b then -1 else if b < a then 1 else cmpChars as bs

/-- The sort comparator of `render` (`src/main.ts:376-387`). -/
def taskCmp (sb : List Char) (a b : FastTask) : Int :=
  if sb = "priority".data then priWeight b.priority - priWeight a.priority
  else if sb = "path".data then cmpChars a.path b.path
  else if sb = "description".data ∨ sb = "alphabet".data then
    cmpChars a.cleanText b.cleanText
  else if sb = "date".data then
    cmpChars (a.completedDate.getD []) (b.completedDate.getD [])
  else 0

/-- Port of `render`'s filter + sort stages (`src/main.ts:369-387`): keep the tasks
passing every filter line, then, when a `sort by` key is set (non-empty
string, i.e. truthy), stable-sort by the comparator (`Array.prototype.sort`
is stable). -/
def sortStage (cfg : TodoConfig) (tasks : List FastTask) : List FastTask :=
  let filtered := tasks.filter (fun t => configPred cfg t)
  if cfg.sortBy = [] then filtered
  else filtered.mergeSort (fun a b => taskCmp cfg.sortBy a b ≤ 0)

/-- Port of `render`'s limit stage (`src/main.ts:390-393`):
`if (config.limit !== undefined) filteredTasks = filteredTasks.slice(0, config.limit)`. -/
def renderPipeline (cfg : TodoConfig) (tasks : List FastTask) :
    List FastTask :=
  match cfg.limit with
  | some n => jsSlice0 n (sortStage cfg tasks)
  | none => sortStage cfg tasks

/-- The renderer's static cache (`FastTodosRenderer.taskCache` /
`lastScanTime`, `src/main.ts:285-286`). -/
structure CacheState where
  taskCache : List FastTask
  lastScanTime : Nat
deriving DecidableEq

/-- Port of `FastTodosRenderer.clearCache` (`src/main.ts:296-299`). -/
def clearCache (_st : CacheState) : CacheState :=
  { taskCache := [], lastScanTime := 0 }

/-- Result of a `getTasks()` call: the returned sequence, the cache state
afterwards, and whether a full vault scan was performed. -/
structure ScanOutcome where
  result : List FastTask
  state : CacheState
  didScan : Bool
deriving DecidableEq

/-- Port of `getTasks` (`src/main.ts:444-476`).  `now` is `Date.now()`; `scan` is
the task sequence produced by the vault-wide file loop (an external
collaborator, §6 of the spec), taken as a parameter.  The cache is served
iff it is non-empty and younger than the 10000 ms TTL; otherwise the scan
result replaces it wholesale. -/
def getTasks (st : CacheState) (now : Nat) (scan : List FastTask) :
    ScanOutcome :=
  if 0 < st.taskCache.length ∧ now - st.lastScanTime < 10000 then
    { result := st.taskCache, state := st, didScan := false }
  else
    { result := scan
      state := { taskCache := scan, lastScanTime := now }
      didScan := true }

/-- Per-renderer state relevant to the metadata-change handler
(`src/main.ts:289-290`): the pending refresh timer (delay of the scheduled
callback, if any) and the grace-period countdown set. -/
structure ViewState where
  activeCountdowns : List (List Char)
  refreshTimer : Option Nat
deriving DecidableEq

/-- The `metadataCache.on('changed')` handler (`src/main.ts:325-336`).
Returns the view state, the shared cache (cleared only later, inside the
timer callback, never by the handler itself), and whether a refresh timer
was scheduled.  `now - lastInternalUpdate < 3000` selects the longer settle
delay. -/
def onMetadataChanged (vs : ViewState) (cache : CacheState)
    (now lastInternalUpdate : Nat) : ViewState × CacheState × Bool :=
  if vs.activeCountdowns ≠ [] then (vs, cache, false)
  else
    let delay := if now - lastInternalUpdate < 3000 then 1000 else 500
    ({ vs with refreshTimer := some delay }, cache, true)

/-- First-occurrence replacement of `/\[.\]/` (`prefix.replace(/\[.\]/, ...)`,
`src/main.ts:698,735,186`): the first `[`&any-char&`]` triple is replaced. -/
def replaceBoxOnce (rep : List Char) : List Char → List Char
  | '[' :: c :: ']' :: r => rep ++ r
  | x :: r => x :: replaceBoxOnce rep r
  | [] => []

/-- Port of `toggleTask` (`src/main.ts:719-748`).  `doc` is the document contents
read from the vault; the result is the new contents written through
`safeModifyLine` (`lines[n] = newLine; lines.join('\n')`), or `none` when
the operation aborts before writing. -/
def toggleTask (doc today : List Char) (t : FastTask) :
    Option (List Char) :=
  let lines := splitOnNl doc
  if lines.length ≤ t.line then none
  else
    let line := lines.getD t.line []
    if line = [] then none
    else
      match matchTaskBox line with
      | none => none
      | some (a, c, rest) =>
        let w := rest.takeWhile jsWhite
        let pfx := a ++ '[' :: c :: ']' :: w
        let rawContent := rest.drop w.length
        let basePfx :=
          replaceBoxOnce (if t.completed then "[x]".data else "[ ]".data) pfx
        let cleanContent := jsTrim (stripCompletionAll rawContent)
        let final0 := basePfx ++ cleanContent
        let final1 :=
          if t.completed then
            final0 ++ " [completed: ".data ++ today ++ "]".data
          else final0
        some (joinNl (lines.set t.line (jsTrimEnd final1)))

/-- The edit form's result record (`src/main.ts:173,685`). -/
structure EditResult where
  description : List Char
  completed : Bool
  priority : Priority
deriving DecidableEq

/-- Port of `updateTask` (`src/main.ts:685-717`, the renderer's version: a completed
result always appends a fresh `[completed: today]` tag). -/
def updateTask (doc today : List Char) (t : FastTask) (res : EditResult) :
    Option (List Char) :=
  let lines := splitOnNl doc
  if lines.length ≤ t.line then none
  else
    let line := lines.getD t.line []
    if line = [] then none
    else
      match matchTaskBox line with
      | none => none
      | some (a, c, rest) =>
        let w := rest.takeWhile jsWhite
        let pfx := a ++ '[' :: c :: ']' :: w
        let basePfx :=
          replaceBoxOnce (if res.completed then "[x]".data else "[ ]".data) pfx
        let cleanDesc := jsTrim (stripTags res.description)
        let cleanDesc2 :=
          if res.priority ≠ Priority.normal then
            cleanDesc ++ " [priority: ".data ++ priorityChars res.priority ++
              "]".data
          else cleanDesc
        let final0 := basePfx ++ cleanDesc2
        let final1 :=
          if res.completed then
            final0 ++ " [completed: ".data ++ today ++ "]".data
          else jsTrimEnd (stripCompletionAll final0)
        some (joinNl (lines.set t.line (jsTrimEnd final1)))

/-- Everything the checkbox `onclick` handler does (`src/main.ts:638-655`):
flip the record, start (or cancel) the grace-period countdown, then call
`toggleTask` unconditionally.  `countdownTicks` is the tick counter that
`startCountdown` (`src/main.ts:584-612`) initializes to 5; `written` is the
document content written back by `toggleTask`, if any. -/
structure ClickOutcome where
  task : FastTask
  countdowns : List (List Char)
  countdownTicks : Option Nat
  written : Option (List Char)

def checkboxClick (doc today : List Char) (cds : List (List Char))
    (t : FastTask) : ClickOutcome :=
  let tid := taskId t
  let newState := !t.completed
  let t1 := { t with completed := newState }
  if newState then
    let cds1 := if cds.contains tid then cds else cds ++ [tid]
    { task := t1, countdowns := cds1, countdownTicks := some 5
      written := toggleTask doc today t1 }
  else
    { task := t1, countdowns := cds.filter (fun x => x ≠ tid)
      countdownTicks := none, written := toggleTask doc today t1 }

/-- Reconstruction of a task line from a parsed record, per the round-trip
contract of the spec (§6, §8): the original checkbox prefix with the status
box set from `completed`, then `cleanDescription`, then ` [priority: p]`
unless the priority is `normal`, then ` [completed: d]` when a completion
date is present.  This mirrors `updateTask`'s line assembly
(`src/main.ts:697-711`) with the record's own date in place of `now`. -/
def reconstructLine (r : FastTask) : List Char :=
  match matchTaskBox r.text with
  | none => r.text
  | some (a, _, rest) =>
    let w := rest.takeWhile jsWhite
    let box := if r.completed then "[x]".data else "[ ]".data
    let pri :=
      if r.priority ≠ Priority.normal then
        " [priority: ".data ++ priorityChars r.priority ++ "]".data
      else []
    let comp :=
      match r.completedDate with
      | some d => " [completed: ".data ++ d ++ "]".data
      | none => []
    a ++ box ++ w ++ r.cleanText ++ pri ++ comp

/-- A concrete record used by witnesses. -/
def sampleTask : FastTask :=
  { text := "- [ ] alpha".data, cleanText := "alpha".data, completed := false
    line := 0, path := "a.md".data, completedDate := none
    priority := Priority.normal }

/-- A second concrete record used by witnesses. -/
def sampleTask2 : FastTask :=
  { sampleTask with line := 1, cleanText := "beta".data }

/-- C3: the claim says `priority is not p` is true iff the record's priority
differs from `p`.  In the code the branch for `priority is ` is tested
first and also matches every `priority is not …` atom
(`src/main.ts:519-522`), binding `p := "not high"`; no record's priority
equals that string, so the atom always evaluates to `false` — the dedicated
`priority is not` branch (`src/main.ts:523-526`) is unreachable.  Here: on a
normal-priority record the claim expects `true`, the code yields `false`. -/
theorem c3_priority_is_not_always_false (cds : List (List Char))
    (today : List Char) (t : FastTask) :
    evaluateAtom cds today "priority is not high".data t = false := by
  obtain ⟨tx, tct, tc, tl, tp, td, tpr⟩ := t
  cases tpr with
  | high =>
    show (priorityChars Priority.high ==
      jsTrim (replaceFirst "priority is ".data
        (jsTrim (toLowerList "priority is not high".data)))) = false
    decide
  | normal =>
    show (priorityChars Priority.normal ==
      jsTrim (replaceFirst "priority is ".data
        (jsTrim (toLowerList "priority is not high".data)))) = false
    decide
  | low =>
    show (priorityChars Priority.low ==
      jsTrim (replaceFirst "priority is ".data
        (jsTrim (toLowerList "priority is not high".data)))) = false
    decide

/-- C5: an atom matching none of the recognized patterns evaluates to `true`
(fail-open); `evaluateAtom` is total by construction. -/
theorem c5_unknown_atom_true (cds : List (List Char)) (today : List Char)
    (atom : List Char) (t : FastTask) (h : recognizedAtom atom = false) :
    evaluateAtom cds today atom t = true := by
  simp only [recognizedAtom] at h
  simp only [evaluateAtom]
  split_ifs at h ⊢ with h1 h2 h3 h4 h5 h6 h7
  all_goals try rfl
  all_goals try simp_all
  all_goals
    exact absurd
      (List.IsPrefix.trans
        (show "priority is ".data <+: "priority is not ".data from
          ⟨"not ".data, by decide⟩) h7)
      h6

theorem c5_unknown_atom_witness :
    recognizedAtom "urgent cleanup".data = false ∧
      evaluateAtom [] [] "urgent cleanup".data sampleTask = true :=
  ⟨by decide, c5_unknown_atom_true [] [] "urgent cleanup".data sampleTask
    (by decide)⟩

/-- C8: while a task's address is in the active-countdown set, the
`not done` atom matches it even though its `completed` flag is set
(`src/main.ts:502-504`), so a `not done` view keeps it. -/
theorem c8_not_done_counting (cds : List (List Char)) (today : List Char)
    (t : FastTask) (h : cds.contains (taskId t) = true) :
    evaluateAtom cds today "not done".data t = true := by
  have e : evaluateAtom cds today "not done".data t =
      (!t.completed || cds.contains (taskId t)) := rfl
  rw [e, h, Bool.or_true]

theorem c8_not_done_counting_witness :
    evaluateAtom ["a.md:0".data] [] "not done".data
      { sampleTask with completed := true } = true :=
  c8_not_done_counting ["a.md:0".data] []
    { sampleTask with completed := true } (by decide)

/-- C9: a write-back whose record's `lineIndex` is outside the document's
line range aborts before writing: both `toggleTask` (`src/main.ts:723`) and
`updateTask` (`src/main.ts:689`) return without modifying the document. -/
theorem c9_stale_address_abort (doc today : List Char) (t : FastTask)
    (res : EditResult) (h : (splitOnNl doc).length ≤ t.line) :
    toggleTask doc today t = none ∧ updateTask doc today t res = none := by
  constructor
  · unfold toggleTask
    simp only [h, if_true]
  · unfold updateTask
    simp only [h, if_true]

theorem c9_stale_address_witness :
    toggleTask "- [ ] alpha".data "2024-01-01".data
        { sampleTask with line := 7 } = none ∧
      updateTask "- [ ] alpha".data "2024-01-01".data
        { sampleTask with line := 7 }
        { description := "x".data, completed := false,
          priority := Priority.normal } = none :=
  c9_stale_address_abort "- [ ] alpha".data "2024-01-01".data
    { sampleTask with line := 7 }
    { description := "x".data, completed := false,
      priority := Priority.normal } (by decide)

/-- C10: when the view has any active grace-period countdown, the
file-metadata `changed` handler returns at once (`src/main.ts:326`): the
shared cache is untouched and no refresh timer is scheduled. -/
theorem c10_changed_suppressed (vs : ViewState) (cache : CacheState)
    (now lastInternalUpdate : Nat) (h : vs.activeCountdowns ≠ []) :
    onMetadataChanged vs cache now lastInternalUpdate =
      (vs, cache, false) := by
  unfold onMetadataChanged
  rw [if_pos h]

theorem c10_changed_suppressed_witness :
    onMetadataChanged
      { activeCountdowns := ["a.md:0".data], refreshTimer := none }
      { taskCache := [sampleTask], lastScanTime := 3 } 100 0 =
    ({ activeCountdowns := ["a.md:0".data], refreshTimer := none },
      { taskCache := [sampleTask], lastScanTime := 3 }, false) :=
  c10_changed_suppressed _ _ 100 0 (by decide)

/-- C2 (counterexample): with an empty vault the first `getTasks()` stores an
empty cache, so a second call 5 ms later — well inside the 10000 ms TTL,
with no `invalidate()` between — still performs a full scan
(`src/main.ts:446` requires `taskCache.length > 0`): the claim's "no second
full scan for every cache state" is false. -/
theorem c2_cache_counterexample :
    ((5:Nat) -
        (getTasks { taskCache := [], lastScanTime := 0 } 0 []).state.lastScanTime
      < 10000) ∧
    (getTasks (getTasks { taskCache := [], lastScanTime := 0 } 0 []).state
      5 []).didScan = true := by
  constructor
  · decide
  · decide

/-- C2 (amended): when the cache left by the first call is non-empty, a
second `getTasks()` within the TTL and with no `invalidate()` in between
returns the same sequence, leaves the cache untouched and performs no scan;
and a call after `clearCache` always rebuilds from the scan, regardless of
how much TTL remained. -/
theorem c2_cache_reuse_and_invalidate :
    (∀ (st : CacheState) (n1 : Nat) (s1 : List FastTask) (n2 : Nat)
        (s2 : List FastTask),
      (getTasks st n1 s1).state.taskCache ≠ [] →
      n2 - (getTasks st n1 s1).state.lastScanTime < 10000 →
      getTasks (getTasks st n1 s1).state n2 s2 =
        { result := (getTasks st n1 s1).result
          state := (getTasks st n1 s1).state
          didScan := false }) ∧
    (∀ (st : CacheState) (now : Nat) (scan : List FastTask),
      getTasks (clearCache st) now scan =
        { result := scan
          state := { taskCache := scan, lastScanTime := now }
          didScan := true }) := by
  constructor
  · intro st n1 s1 n2 s2 hne httl
    by_cases h1 : 0 < st.taskCache.length ∧ n1 - st.lastScanTime < 10000
    · have e1 : getTasks st n1 s1 =
          { result := st.taskCache, state := st, didScan := false } := by
        unfold getTasks; rw [if_pos h1]
      rw [e1] at hne httl ⊢
      unfold getTasks
      rw [if_pos ⟨List.length_pos.mpr hne, httl⟩]
    · have e1 : getTasks st n1 s1 =
          { result := s1
            state := { taskCache := s1, lastScanTime := n1 }
            didScan := true } := by
        unfold getTasks; rw [if_neg h1]
      rw [e1] at hne httl ⊢
      unfold getTasks
      rw [if_pos ⟨List.length_pos.mpr hne, httl⟩]
  · intro st now scan
    unfold getTasks clearCache
    simp

theorem c2_cache_witness :
    (getTasks
        (getTasks { taskCache := [], lastScanTime := 0 } 0 [sampleTask]).state
        5 []) =
      { result := (getTasks { taskCache := [], lastScanTime := 0 } 0
          [sampleTask]).result
        state := (getTasks { taskCache := [], lastScanTime := 0 } 0
          [sampleTask]).state
        didScan := false } ∧
    getTasks (clearCache { taskCache := [sampleTask], lastScanTime := 9999 })
        10000 [sampleTask2] =
      { result := [sampleTask2]
        state := { taskCache := [sampleTask2], lastScanTime := 10000 }
        didScan := true } :=
  ⟨c2_cache_reuse_and_invalidate.1 { taskCache := [], lastScanTime := 0 } 0
      [sampleTask] 5 [] (by decide) (by decide),
    c2_cache_reuse_and_invalidate.2
      { taskCache := [sampleTask], lastScanTime := 9999 } 10000 [sampleTask2]⟩

unseal stripTags stripCompletionAll in
/-- C1: the claim (and the spec's grace-period design) says that while a
`PendingCompletion` countdown is `Counting`, no write-back occurs and no
completion tag is written.  The click handler (`src/main.ts:638-655`)
instead calls `toggleTask` unconditionally right after `startCountdown`:
checking `- [ ] foo` starts the 5-tick countdown *and* immediately writes
`- [x] foo [completed: <today>]` to the document. -/
theorem c1_write_during_countdown :
    (checkboxClick "- [ ] foo".data "2024-01-01".data []
        (parseTaskLine "- [ ] foo".data 0 "a.md".data false)).countdowns =
      ["a.md:0".data] ∧
    (checkboxClick "- [ ] foo".data "2024-01-01".data []
        (parseTaskLine "- [ ] foo".data 0 "a.md".data false)).countdownTicks =
      some 5 ∧
    (checkboxClick "- [ ] foo".data "2024-01-01".data []
        (parseTaskLine "- [ ] foo".data 0 "a.md".data false)).written =
      some "- [x] foo [completed: 2024-01-01]".data := by
  refine ⟨?_, ?_, ?_⟩ <;> decide

/-- C6 (counterexample): `limit -1` parses as the integer `-1`
(`src/main.ts:544`, `parseInt` accepts a sign), so the compiled limit is
negative, contradicting "the compiled limit is a non-negative integer"; the
subsequent `slice(0, -1)` then drops the *last* entry instead of keeping the
first `min(N, length)`. -/
theorem c6_limit_counterexample :
    (parseConfig [] [] "limit -1".data).limit = some (-1) ∧
      ¬ (0:Int) ≤ -1 ∧
      jsSlice0 (-1) [sampleTask, sampleTask2] = [sampleTask] := by
  refine ⟨?_, by decide, by decide⟩
  decide

theorem jsSlice0_nonneg {n : Int} (h : 0 ≤ n) (l : List α) :
    jsSlice0 n l = l.take n.toNat := by
  unfold jsSlice0
  rw [if_pos h]

/-- C6 (amended): when the compiled limit is a non-negative integer `n`, the
rendered result is exactly the first `min(n, length)` entries — `take n` —
of the filtered-and-sorted sequence (`src/main.ts:390-393`). -/
theorem c6_limit_take (cds : List (List Char)) (today src : List Char)
    (tasks : List FastTask) (n : Int)
    (hl : (parseConfig cds today src).limit = some n) (hn : 0 ≤ n) :
    renderPipeline (parseConfig cds today src) tasks =
      (sortStage (parseConfig cds today src) tasks).take n.toNat := by
  unfold renderPipeline
  rw [hl]
  exact jsSlice0_nonneg hn _

theorem c6_limit_witness :
    renderPipeline (parseConfig [] [] "limit 1".data)
        [sampleTask, sampleTask2] =
      (sortStage (parseConfig [] [] "limit 1".data)
        [sampleTask, sampleTask2]).take ((1:Int)).toNat :=
  c6_limit_take [] [] "limit 1".data [sampleTask, sampleTask2] 1
    (by decide) (by decide)

theorem parseConfigStepFilters (cds : List (List Char)) (today : List Char)
    (cfg : TodoConfig) (l : List Char) :
    (parseConfigStep cds today cfg l).filters =
      (if isDirectiveLine l then cfg.filters
       else cfg.filters ++ [fun t => lineHolds cds today l t]) := by
  simp only [parseConfigStep, isDirectiveLine, lineHolds]
  by_cases h1 : "limit".data.isPrefixOf (toLowerList l) = true
  · simp only [h1, Bool.true_or, if_true]
    cases jsParseInt (jsTrim (replaceFirst "limit".data (toLowerList l))) <;>
      rfl
  · rw [Bool.not_eq_true] at h1
    by_cases h2 : "group by".data.isPrefixOf (toLowerList l) = true
    · simp only [h1, h2, Bool.false_or, Bool.true_or, if_true, if_false]
      rfl
    · rw [Bool.not_eq_true] at h2
      by_cases h3 : "sort by".data.isPrefixOf (toLowerList l) = true
      · simp only [h1, h2, h3, Bool.false_or, Bool.true_or, if_true, if_false]
        rfl
      · rw [Bool.not_eq_true] at h3
        simp only [h1, h2, h3, Bool.false_or, if_false]
        rfl

theorem configPredFoldl :
    ∀ (lines : List (List Char)) (cds : List (List Char)) (today : List Char)
      (cfg : TodoConfig) (t : FastTask),
    configPred (lines.foldl (parseConfigStep cds today) cfg) t =
      (configPred cfg t &&
        (lines.filter (fun l => !isDirectiveLine l)).all
          (fun line => lineHolds cds today line t)) := by
  intro lines
  induction lines with
  | nil => intro cds today cfg t; simp
  | cons l ls ih =>
    intro cds today cfg t
    rw [List.foldl_cons, ih]
    have hcp : configPred (parseConfigStep cds today cfg l) t =
        (if isDirectiveLine l then configPred cfg t
         else configPred cfg t && lineHolds cds today l t) := by
      unfold configPred
      rw [parseConfigStepFilters]
      by_cases hd : isDirectiveLine l = true
      · rw [if_pos hd, if_pos hd]
      · rw [if_neg hd, if_neg hd]
        simp
    by_cases hd : isDirectiveLine l = true
    · rw [hcp, if_pos hd, List.filter_cons_of_neg]
      simp [hd]
    · rw [Bool.not_eq_true] at hd
      rw [hcp, if_neg (by simp [hd])]
      rw [List.filter_cons_of_pos (by simp [hd])]
      rw [List.all_cons, Bool.and_assoc]

unseal splitSep in
/-- C4: the predicate applied by `render` is the conjunction over the query
block's filter lines; a line holds iff one of its `OR`-alternatives holds;
an alternative holds iff all of its `AND`-atoms hold
(`src/main.ts:370-372,557-567`).  In particular,
`compile("priority is high OR priority is low")` includes exactly the
records whose priority is not `normal`. -/
theorem c4_and_of_ors :
    (∀ (cds : List (List Char)) (today src : List Char) (t : FastTask),
      configPred (parseConfig cds today src) t =
        ((configLines src).filter (fun l => !isDirectiveLine l)).all
          (fun line => lineHolds cds today line t)) ∧
    (∀ (cds : List (List Char)) (today : List Char) (t : FastTask),
      configPred (parseConfig cds today
          "priority is high OR priority is low".data) t =
        decide (t.priority ≠ Priority.normal)) := by
  have hmain : ∀ (cds : List (List Char)) (today src : List Char)
      (t : FastTask),
      configPred (parseConfig cds today src) t =
        ((configLines src).filter (fun l => !isDirectiveLine l)).all
          (fun line => lineHolds cds today line t) := by
    intro cds today src t
    unfold parseConfig
    rw [configPredFoldl]
    simp [configPred]
  refine ⟨hmain, ?_⟩
  intro cds today t
  rw [hmain]
  obtain ⟨tx, tct, tc, tl, tp, td, tpr⟩ := t
  cases tpr <;> rfl

theorem memTakeWhile {p : α → Bool} : ∀ {l : List α} {x : α},
    x ∈ l.takeWhile p → p x = true := by
  intro l
  induction l with
  | nil => intro x h; simp at h
  | cons c r ih =>
    intro x h
    rw [List.takeWhile_cons] at h
    by_cases hc : p c
    · rw [if_pos hc] at h
      rcases List.mem_cons.mp h with h1 | h2
      · rw [h1]; exact hc
      · exact ih h2
    · rw [if_neg hc] at h
      simp at h

theorem memDropWhile {p : α → Bool} : ∀ {l : List α} {x : α},
    x ∈ l.dropWhile p → x ∈ l := by
  intro l
  induction l with
  | nil => intro x h; simp at h
  | cons c r ih =>
    intro x h
    rw [List.dropWhile_cons] at h
    by_cases hc : p c
    · rw [if_pos hc] at h
      exact List.mem_cons_of_mem c (ih h)
    · rw [if_neg hc] at h
      exact h

theorem dropWhileNilAll {p : α → Bool} : ∀ {l : List α},
    l.dropWhile p = [] → ∀ x ∈ l, p x = true := by
  intro l
  induction l with
  | nil => intro _ x h; simp at h
  | cons c r ih =>
    intro h x hx
    rw [List.dropWhile_cons] at h
    by_cases hc : p c
    · rw [if_pos hc] at h
      rcases List.mem_cons.mp hx with h1 | h2
      · rw [h1]; exact hc
      · exact ih h x h2
    · rw [if_neg hc] at h
      simp at h

theorem dropWhileHeadNot {p : α → Bool} : ∀ {l : List α} {h : α} {t : List α},
    l.dropWhile p = h :: t → p h = false := by
  intro l
  induction l with
  | nil => intro h t hh; simp at hh
  | cons c r ih =>
    intro h t hh
    rw [List.dropWhile_cons] at hh
    by_cases hc : p c
    · rw [if_pos hc] at hh
      exact ih hh
    · rw [if_neg hc] at hh
      cases hh
      cases hb : p c
      · rfl
      · exact absurd hb hc

theorem takeWhileAppendStop {p : α → Bool} {a : List α} {x : α} {y : List α}
    (ha : ∀ c ∈ a, p c = true) (hx : p x = false) :
    (a ++ x :: y).takeWhile p = a := by
  induction a with
  | nil => simp [List.takeWhile_cons, hx]
  | cons c r ih =>
    rw [List.cons_append, List.takeWhile_cons,
      if_pos (ha c (List.mem_cons_self c r))]
    rw [ih (fun d hd => ha d (List.mem_cons_of_mem c hd))]

theorem scanFirstConsNone {f : List Char → Option α} {c : Char}
    {r : List Char} (h : f (c :: r) = none) :
    scanFirst f (c :: r) = scanFirst f r := by
  show (match f (c :: r) with
    | some a => some a
    | none => scanFirst f r) = scanFirst f r
  rw [h]

theorem scanFirstConsSome {f : List Char → Option α} {c : Char}
    {r : List Char} {v : α} (h : f (c :: r) = some v) :
    scanFirst f (c :: r) = some v := by
  show (match f (c :: r) with
    | some a => some a
    | none => scanFirst f r) = some v
  rw [h]

theorem scanFirstAppend {f : List Char → Option α}
    (hf : ∀ (c : Char) (r : List Char), c ≠ '[' → f (c :: r) = none) :
    ∀ {xs : List Char} (ys : List Char), (∀ x ∈ xs, x ≠ '[') →
    scanFirst f (xs ++ ys) = scanFirst f ys := by
  intro xs
  induction xs with
  | nil => intro ys _; rfl
  | cons c r ih =>
    intro ys hxs
    rw [List.cons_append,
      scanFirstConsNone (hf c (r ++ ys) (hxs c (List.mem_cons_self c r)))]
    exact ih ys (fun x hx => hxs x (List.mem_cons_of_mem c hx))

theorem scanFirstProp {f : List Char → Option α} {P : α → Prop}
    (hf : ∀ (u : List Char) (v : α), f u = some v → P v) :
    ∀ {l : List Char} {v : α}, scanFirst f l = some v → P v := by
  intro l
  induction l with
  | nil => intro v h; simp [scanFirst] at h
  | cons c r ih =>
    intro v h
    unfold scanFirst at h
    cases hc : f (c :: r) with
    | some w =>
      rw [hc] at h
      cases h
      exact hf _ _ hc
    | none =>
      rw [hc] at h
      exact ih h

theorem splitRBAppend {t : List Char} : ∀ {fr : List Char},
    (∀ x ∈ fr, x ≠ ']') → splitRB (fr ++ ']' :: t) = some (fr, t) := by
  intro fr
  induction fr with
  | nil => intro _; simp [splitRB]
  | cons c r ih =>
    intro hfr
    rw [List.cons_append, splitRB,
      if_neg (hfr c (List.mem_cons_self c r))]
    rw [ih (fun x hx => hfr x (List.mem_cons_of_mem c hx))]
    rfl

theorem splitRBInv : ∀ {l fr t : List Char}, splitRB l = some (fr, t) →
    l = fr ++ ']' :: t ∧ ∀ x ∈ fr, x ≠ ']' := by
  intro l
  induction l with
  | nil => intro fr t h; simp [splitRB] at h
  | cons c r ih =>
    intro fr t h
    by_cases hc : c = ']'
    · rw [splitRB, if_pos hc] at h
      simp at h
      obtain ⟨h1, h2⟩ := h
      subst hc
      rw [h1, ← h2]
      exact ⟨rfl, by simp⟩
    · rw [splitRB, if_neg hc] at h
      cases hr : splitRB r with
      | none => rw [hr] at h; simp at h
      | some p =>
        obtain ⟨p1, p2⟩ := p
        rw [hr] at h
        simp at h
        obtain ⟨ihl, ihm⟩ := ih hr
        constructor
        · rw [← h.1, ← h.2, ihl]
          rfl
        · intro x hx
          rw [← h.1] at hx
          rcases List.mem_cons.mp hx with h1 | h2
          · rw [h1]; exact hc
          · exact ihm x h2

theorem takeWhileDropDecomp (p : α → Bool) (l : List α) :
    l = l.takeWhile p ++ l.drop (l.takeWhile p).length := by
  induction l with
  | nil => rfl
  | cons c r ih =>
    rw [List.takeWhile_cons]
    by_cases hc : p c
    · rw [if_pos hc]
      simp only [List.length_cons, List.drop_succ_cons, List.cons_append]
      exact congrArg (c :: ·) ih
    · rw [if_neg hc]
      simp

theorem matchTaskBoxInv {l a : List Char} {c : Char} {rest : List Char}
    (h : matchTaskBox l = some (a, c, rest)) :
    l = a ++ '[' :: c :: ']' :: rest ∧ (∀ x ∈ a, taskMarkChars x = true) ∧
      (c == ' ' || c == 'x' || c == 'X') = true := by
  have hdec := takeWhileDropDecomp taskMarkChars l
  simp only [matchTaskBox] at h
  split at h
  · rename_i c2 rest2 heq
    split at h
    · rename_i hok
      simp at h
      obtain ⟨ha, hc2, hrest⟩ := h
      subst hc2 hrest
      refine ⟨?_, ?_, hok⟩
      · rw [← ha, ← heq]
        exact hdec
      · intro x hx
        rw [← ha] at hx
        exact memTakeWhile hx
    · simp at h
  · simp at h

theorem matchTaskBoxMk {a : List Char} {c : Char} (rest : List Char)
    (ha : ∀ x ∈ a, taskMarkChars x = true)
    (hc : (c == ' ' || c == 'x' || c == 'X') = true) :
    matchTaskBox (a ++ '[' :: c :: ']' :: rest) = some (a, c, rest) := by
  have h1 : (a ++ '[' :: c :: ']' :: rest).takeWhile taskMarkChars = a :=
    takeWhileAppendStop ha (by decide)
  simp only [matchTaskBox, h1, List.drop_left]
  rw [if_pos hc]

theorem taskMarkNeLB {x : Char} (h : taskMarkChars x = true) : x ≠ '[' := by
  intro hx
  rw [hx] at h
  exact absurd h (by decide)

theorem jsWhiteNeLB {x : Char} (h : jsWhite x = true) : x ≠ '[' := by
  intro hx
  rw [hx] at h
  exact absurd h (by decide)

theorem isBoxAtNeLB : ∀ (c : Char) (r : List Char), c ≠ '[' →
    isBoxAt (c :: r) = none := by
  intro c r hc
  unfold isBoxAt
  split
  · rename_i c2 r2 heq
    exact absurd (List.cons.injEq .. ▸ heq).1 hc
  · rfl

theorem matchCompletedAtNeLB : ∀ (c : Char) (r : List Char), c ≠ '[' →
    matchCompletedAt (c :: r) = none := by
  intro c r hc
  unfold matchCompletedAt
  split
  · rename_i r2 heq
    exact absurd (List.cons.injEq .. ▸ heq).1 hc
  · rfl

theorem matchPriorityAtNeLB : ∀ (c : Char) (r : List Char), c ≠ '[' →
    matchPriorityAt (c :: r) = none := by
  intro c r hc
  unfold matchPriorityAt
  split
  · rename_i r2 heq
    exact absurd (List.cons.injEq .. ▸ heq).1 hc
  · rfl

/-- Shape of a value captured by `colonCapture`: non-empty, `]`-free, and
blank-initial only when it is a single blank. -/
theorem colonCaptureShape {l d : List Char} (h : colonCapture l = some d) :
    d ≠ [] ∧ (∀ x ∈ d, x ≠ ']') ∧
      (∀ (h0 : Char) (tl : List Char), d = h0 :: tl → jsWhite h0 = true →
        tl = []) := by
  simp only [colonCapture] at h
  by_cases h0 : (l.takeWhile (fun c => c == ':')).length = 0
  · rw [if_pos h0] at h
    simp at h
  · rw [if_neg h0] at h
    cases hs : splitRB (l.drop (l.takeWhile (fun c => c == ':')).length) with
    | none => rw [hs] at h; simp at h
    | some p =>
      obtain ⟨front, rest2⟩ := p
      rw [hs] at h
      dsimp only at h
      obtain ⟨-, hfr⟩ := splitRBInv hs
      by_cases hf : front = []
      · rw [if_pos hf] at h
        by_cases h2 : 2 ≤ (l.takeWhile (fun c => c == ':')).length
        · rw [if_pos h2] at h
          simp at h
          subst h
          refine ⟨by simp, by intro x hx; simp at hx; rw [hx]; decide, ?_⟩
          intro h0 tl hd hw
          exact (List.cons.injEq .. ▸ hd.symm).2
        · rw [if_neg h2] at h
          simp at h
      · rw [if_neg hf] at h
        by_cases hm : front.dropWhile jsWhite = []
        · rw [if_pos hm] at h
          simp at h
          subst h
          have hlen : (front.drop (front.length - 1)).length = 1 := by
            rw [List.length_drop]
            have : 0 < front.length := List.length_pos.mpr hf
            omega
          refine ⟨?_, ?_, ?_⟩
          · intro hn
            rw [hn] at hlen
            simp at hlen
          · intro x hx
            exact hfr x (List.mem_of_mem_drop hx)
          · intro h0 tl hd _
            rw [hd, List.length_cons] at hlen
            have : tl.length = 0 := by omega
            exact List.length_eq_zero.mp this
        · rw [if_neg hm] at h
          simp at h
          subst h
          refine ⟨hm, ?_, ?_⟩
          · intro x hx
            exact hfr x (memDropWhile hx)
          · intro h0 tl hd hw
            have := dropWhileHeadNot hd
            rw [hw] at this
            simp at this

/-- Re-parsing the reconstructed completion tag `[completed: d]` captures
exactly `d` again, for every `d` a previous capture can produce. -/
theorem colonCaptureTag {d : List Char} (hne : d ≠ [])
    (hrb : ∀ x ∈ d, x ≠ ']')
    (hsh : ∀ (h0 : Char) (tl : List Char), d = h0 :: tl →
      jsWhite h0 = true → tl = []) :
    colonCapture (':' :: ' ' :: (d ++ [']'])) = some d := by
  have hfr : ∀ x ∈ ' ' :: d, x ≠ ']' := by
    intro x hx
    rcases List.mem_cons.mp hx with h1 | h2
    · rw [h1]; decide
    · exact hrb x h2
  have hsp : splitRB (' ' :: (d ++ [']'])) = some (' ' :: d, []) := by
    have he : (' ' :: d) ++ ']' :: ([] : List Char) = ' ' :: (d ++ [']']) := by
      simp
    rw [← he]
    exact splitRBAppend hfr
  have htw : ((':' :: ' ' :: (d ++ [']'])).takeWhile (fun c => c == ':')) =
      [':'] := by
    rw [List.takeWhile_cons, if_pos (by decide), List.takeWhile_cons,
      if_neg (by decide)]
  simp only [colonCapture, htw]
  rw [if_neg (by decide)]
  have hdr : (':' :: ' ' :: (d ++ [']'])).drop ([':'] : List Char).length =
      ' ' :: (d ++ [']']) := rfl
  rw [hdr, hsp]
  dsimp only
  rw [if_neg (by simp)]
  rcases hd : d with _ | ⟨h0, tl⟩
  · exact absurd hd hne
  · by_cases hw : jsWhite h0 = true
    · have htl : tl = [] := hsh h0 tl hd hw
      subst htl
      have hm : (' ' :: [h0]).dropWhile jsWhite = [] := by
        rw [List.dropWhile_cons, if_pos (by decide), List.dropWhile_cons,
          if_pos hw, List.dropWhile_nil]
      rw [hm, if_pos rfl]
      rfl
    · have hm : (' ' :: (h0 :: tl)).dropWhile jsWhite = h0 :: tl := by
        rw [List.dropWhile_cons, if_pos (by decide), List.dropWhile_cons,
          if_neg hw]
      rw [hm, if_neg (by simp)]

theorem matchCompletedAtTag {d : List Char} (hne : d ≠ [])
    (hrb : ∀ x ∈ d, x ≠ ']')
    (hsh : ∀ (h0 : Char) (tl : List Char), d = h0 :: tl →
      jsWhite h0 = true → tl = []) :
    matchCompletedAt ('[' :: ("completed: ".data ++ (d ++ [']']))) =
      some d := by
  have h1 : ciHasPfx "completed".data ("completed: ".data ++ (d ++ [']'])) =
      true := rfl
  simp only [matchCompletedAt]
  rw [if_pos h1]
  exact colonCaptureTag hne hrb hsh

/-- Scanning the reconstructed `' [completed: d]'` segment: the completion
match fires at its `[` and captures `d`. -/
theorem findCompletedComp {d : List Char} (hne : d ≠ [])
    (hrb : ∀ x ∈ d, x ≠ ']')
    (hsh : ∀ (h0 : Char) (tl : List Char), d = h0 :: tl →
      jsWhite h0 = true → tl = []) :
    scanFirst matchCompletedAt ((" [completed: ".data ++ d) ++ "]".data) =
      some d := by
  show scanFirst matchCompletedAt
    (' ' :: '[' :: ("completed: ".data ++ (d ++ [']']))) = some d
  rw [scanFirstConsNone (by rfl)]
  exact scanFirstConsSome (matchCompletedAtTag hne hrb hsh)

/-- Scanning the reconstructed `' [completed: d]'` segment for a priority
tag finds none when `d` contains no `[`. -/
theorem findPriorityCompNone {d : List Char}
    (hlb : ∀ x ∈ d, x ≠ '[') :
    scanFirst matchPriorityAt ((" [completed: ".data ++ d) ++ "]".data) =
      none := by
  show scanFirst matchPriorityAt
    (' ' :: '[' :: ("completed: ".data ++ (d ++ [']']))) = none
  rw [scanFirstConsNone (by rfl), scanFirstConsNone (by rfl)]
  have h1 : ∀ x ∈ "completed: ".data ++ (d ++ [']']), x ≠ '[' := by
    intro x hx
    rcases List.mem_append.mp hx with h2 | h3
    · intro he
      subst he
      exact absurd h2 (by decide)
    · rcases List.mem_append.mp h3 with h4 | h5
      · exact hlb x h4
      · intro he
        subst he
        simp at h5
  have := scanFirstAppend matchPriorityAtNeLB ([] : List Char) h1
  rw [List.append_nil] at this
  rw [this]
  rfl

theorem matchCompletedAtShape {u v : List Char}
    (h : matchCompletedAt u = some v) :
    v ≠ [] ∧ (∀ x ∈ v, x ≠ ']') ∧
      (∀ (h0 : Char) (tl : List Char), v = h0 :: tl → jsWhite h0 = true →
        tl = []) := by
  unfold matchCompletedAt at h
  split at h
  · split at h
    · exact colonCaptureShape h
    · split at h
      · exact colonCaptureShape h
      · simp at h
  · simp at h

theorem findPriorityPriSegHigh (X : List Char) :
    scanFirst matchPriorityAt
      (((" [priority: ".data ++ priorityChars Priority.high) ++ "]".data) ++ X)
      = some Priority.high := by
  show scanFirst matchPriorityAt
    (' ' :: '[' :: ("priority: high]".data ++ X)) = some Priority.high
  rw [scanFirstConsNone (by rfl)]
  exact scanFirstConsSome (by rfl)

theorem findPriorityPriSegLow (X : List Char) :
    scanFirst matchPriorityAt
      (((" [priority: ".data ++ priorityChars Priority.low) ++ "]".data) ++ X)
      = some Priority.low := by
  show scanFirst matchPriorityAt
    (' ' :: '[' :: ("priority: low]".data ++ X)) = some Priority.low
  rw [scanFirstConsNone (by rfl)]
  exact scanFirstConsSome (by rfl)

theorem findCompletedPriSegHigh (X : List Char) :
    scanFirst matchCompletedAt
      (((" [priority: ".data ++ priorityChars Priority.high) ++ "]".data) ++ X)
      = scanFirst matchCompletedAt X := by
  show scanFirst matchCompletedAt
    (' ' :: '[' :: ("priority: high]".data ++ X)) = scanFirst matchCompletedAt X
  rw [scanFirstConsNone (by rfl), scanFirstConsNone (by rfl)]
  exact scanFirstAppend matchCompletedAtNeLB X (by decide)

theorem findCompletedPriSegLow (X : List Char) :
    scanFirst matchCompletedAt
      (((" [priority: ".data ++ priorityChars Priority.low) ++ "]".data) ++ X)
      = scanFirst matchCompletedAt X := by
  show scanFirst matchCompletedAt
    (' ' :: '[' :: ("priority: low]".data ++ X)) = scanFirst matchCompletedAt X
  rw [scanFirstConsNone (by rfl), scanFirstConsNone (by rfl)]
  exact scanFirstAppend matchCompletedAtNeLB X (by decide)

/-- The priority tag appended by the reconstruction (omitted for
`normal`), as in `updateTask` (`src/main.ts:703-705`). -/
def priSeg (pr : Priority) : List Char :=
  if pr ≠ Priority.normal then
    " [priority: ".data ++ priorityChars pr ++ "]".data
  else []

/-- The completion tag appended by the reconstruction (omitted when no
completion date is stored), as in `updateTask` (`src/main.ts:708-711`) with
the record’s date in place of `now`. -/
def compSeg : Option (List Char) → List Char
  | some d => " [completed: ".data ++ d ++ "]".data
  | none => []

/-- Scanning the reconstructed content tail `w ++ description ++ priority-tag
++ completion-tag`: the completion scan recovers exactly the stored date and
the priority scan recovers exactly the stored priority, provided the
whitespace run, the description and the date contain no `[`. -/
theorem scanContentTail (w D : List Char) (pr : Priority)
    (dd : Option (List Char))
    (hw : ∀ x ∈ w, x ≠ '[') (hD : ∀ x ∈ D, x ≠ '[')
    (hdlb : ∀ x ∈ dd.getD [], x ≠ '[')
    (hdsh : ∀ d, dd = some d → d ≠ [] ∧ (∀ x ∈ d, x ≠ ']') ∧
      (∀ (h0 : Char) (tl : List Char), d = h0 :: tl → jsWhite h0 = true →
        tl = [])) :
    findCompleted (w ++ (D ++ (priSeg pr ++ compSeg dd))) = dd ∧
    (findPriority (w ++ (D ++ (priSeg pr ++ compSeg dd)))).getD
      Priority.normal = pr := by
  constructor
  · unfold findCompleted
    rw [scanFirstAppend matchCompletedAtNeLB _ hw,
      scanFirstAppend matchCompletedAtNeLB _ hD]
    rcases dd with _ | d
    · cases pr
      · show scanFirst matchCompletedAt
          (((" [priority: ".data ++ priorityChars Priority.high) ++
            "]".data) ++ []) = none
        rw [findCompletedPriSegHigh]
        rfl
      · rfl
      · show scanFirst matchCompletedAt
          (((" [priority: ".data ++ priorityChars Priority.low) ++
            "]".data) ++ []) = none
        rw [findCompletedPriSegLow]
        rfl
    · obtain ⟨hne, hrb, hsh⟩ := hdsh d rfl
      cases pr
      · show scanFirst matchCompletedAt
          (((" [priority: ".data ++ priorityChars Priority.high) ++
            "]".data) ++ ((" [completed: ".data ++ d) ++ "]".data)) = some d
        rw [findCompletedPriSegHigh]
        exact findCompletedComp hne hrb hsh
      · exact findCompletedComp hne hrb hsh
      · show scanFirst matchCompletedAt
          (((" [priority: ".data ++ priorityChars Priority.low) ++
            "]".data) ++ ((" [completed: ".data ++ d) ++ "]".data)) = some d
        rw [findCompletedPriSegLow]
        exact findCompletedComp hne hrb hsh
  · unfold findPriority
    rw [scanFirstAppend matchPriorityAtNeLB _ hw,
      scanFirstAppend matchPriorityAtNeLB _ hD]
    rcases dd with _ | d
    · cases pr
      · show (scanFirst matchPriorityAt
          (((" [priority: ".data ++ priorityChars Priority.high) ++
            "]".data) ++ [])).getD Priority.normal = Priority.high
        rw [findPriorityPriSegHigh]
        rfl
      · rfl
      · show (scanFirst matchPriorityAt
          (((" [priority: ".data ++ priorityChars Priority.low) ++
            "]".data) ++ [])).getD Priority.normal = Priority.low
        rw [findPriorityPriSegLow]
        rfl
    · cases pr
      · show (scanFirst matchPriorityAt
          (((" [priority: ".data ++ priorityChars Priority.high) ++
            "]".data) ++ ((" [completed: ".data ++ d) ++ "]".data))).getD
            Priority.normal = Priority.high
        rw [findPriorityPriSegHigh]
        rfl
      · show (scanFirst matchPriorityAt
          ((" [completed: ".data ++ d) ++ "]".data)).getD Priority.normal =
            Priority.normal
        rw [@findPriorityCompNone d (fun x hx => hdlb x hx)]
        rfl
      · show (scanFirst matchPriorityAt
          (((" [priority: ".data ++ priorityChars Priority.low) ++
            "]".data) ++ ((" [completed: ".data ++ d) ++ "]".data))).getD
            Priority.normal = Priority.low
        rw [findPriorityPriSegLow]
        rfl

/-- C7 (amended): round-trip stability — parse, reconstruct
`prefix + cleanDescription + tags`, re-parse — preserves `completed`,
`priority` and `completedDate` for every valid task line whose parsed
description and completion date contain no `[` character. -/
theorem c7_round_trip (line path : List Char) (lineNum : Nat) (r : FastTask)
    (hp : parseLine line lineNum path = some r)
    (hclean : ∀ x ∈ r.cleanText, x ≠ '[')
    (hdate : ∀ x ∈ r.completedDate.getD [], x ≠ '[') :
    (parseLine (reconstructLine r) lineNum path).map
      (fun r2 => (r2.completed, r2.priority, r2.completedDate)) =
      some (r.completed, r.priority, r.completedDate) := by
  unfold parseLine at hp
  cases hm : matchTaskBox line with
  | none => rw [hm] at hp; simp at hp
  | some trip =>
  obtain ⟨a, c0, rest⟩ := trip
  rw [hm] at hp
  dsimp only at hp
  rw [Option.some.injEq] at hp
  obtain ⟨hline, hamem, -⟩ := matchTaskBoxInv hm
  have htext : r.text = line := by rw [← hp]; rfl
  have hdate0 : findCompleted rest = r.completedDate := by
    rw [← hp]
    simp only [parseTaskLine, hm]
  have hpri0 : (findPriority rest).getD Priority.normal = r.priority := by
    rw [← hp]
    simp only [parseTaskLine, hm]
  obtain ⟨c', hcval, hcx, hcok⟩ :
      ∃ c', (if r.completed then "[x]".data else "[ ]".data) =
          '[' :: c' :: ']' :: [] ∧ (c'.toLower == 'x') = r.completed ∧
          (c' == ' ' || c' == 'x' || c' == 'X') = true := by
    cases hb : r.completed
    · exact ⟨' ', by simp [hb], by simp [hb], by decide⟩
    · exact ⟨'x', by simp [hb], by simp [hb], by decide⟩
  have hrecon : reconstructLine r =
      a ++ '[' :: c' :: ']' ::
        (rest.takeWhile jsWhite ++ (r.cleanText ++
          (priSeg r.priority ++ compSeg r.completedDate))) := by
    simp only [reconstructLine, htext, hm]
    rw [hcval]
    cases r.completedDate <;>
      simp [priSeg, compSeg, List.append_assoc]
  have hwne : ∀ x ∈ rest.takeWhile jsWhite, x ≠ '[' :=
    fun x hx => jsWhiteNeLB (memTakeWhile hx)
  have hdsh : ∀ d, r.completedDate = some d → d ≠ [] ∧
      (∀ x ∈ d, x ≠ ']') ∧
      (∀ (h0 : Char) (tl : List Char), d = h0 :: tl → jsWhite h0 = true →
        tl = []) := by
    intro d hd
    have : findCompleted rest = some d := by rw [hdate0, hd]
    exact scanFirstProp (fun u v hv => matchCompletedAtShape hv) this
  have hscan := scanContentTail (rest.takeWhile jsWhite) r.cleanText
    r.priority r.completedDate hwne hclean hdate hdsh
  have hmb2 : matchTaskBox (reconstructLine r) =
      some (a, c',
        rest.takeWhile jsWhite ++ (r.cleanText ++
          (priSeg r.priority ++ compSeg r.completedDate))) := by
    rw [hrecon]
    exact matchTaskBoxMk _ hamem hcok
  have hsb2 : findStatusBox (reconstructLine r) = some c' := by
    rw [hrecon]
    unfold findStatusBox
    rw [scanFirstAppend isBoxAtNeLB _ (fun x hx => taskMarkNeLB (hamem x hx))]
    refine scanFirstConsSome ?_
    show (if (c' == ' ' || c' == 'x' || c' == 'X') = true then some c'
      else none) = some c'
    rw [if_pos hcok]
  unfold parseLine
  rw [hmb2, hsb2]
  dsimp only
  rw [Option.map_some']
  have e1 : (parseTaskLine (reconstructLine r) lineNum path
      (c'.toLower == 'x')).completed = r.completed := by
    simp only [parseTaskLine]
    exact hcx
  have e2 : (parseTaskLine (reconstructLine r) lineNum path
      (c'.toLower == 'x')).completedDate = r.completedDate := by
    simp only [parseTaskLine, hmb2]
    exact hscan.1
  have e3 : (parseTaskLine (reconstructLine r) lineNum path
      (c'.toLower == 'x')).priority = r.priority := by
    simp only [parseTaskLine, hmb2]
    exact hscan.2
  rw [e1, e2, e3]

/-- A well-behaved concrete task line for the round-trip witness. -/
def c7Line : List Char :=
  "- [x] buy milk [priority: HIGH] [completed: 2024-01-01]".data

/-- The record `c7Line` parses to. -/
def c7Rec : FastTask :=
  { text := c7Line, cleanText := "buy milk".data, completed := true
    line := 0, path := "a.md".data
    completedDate := some "2024-01-01".data, priority := Priority.high }

unseal stripTags stripCompletionAll in
theorem c7_round_trip_witness :
    parseLine c7Line 0 "a.md".data = some c7Rec ∧
    (parseLine (reconstructLine c7Rec) 0 "a.md".data).map
      (fun r2 => (r2.completed, r2.priority, r2.completedDate)) =
      some (true, Priority.high, some "2024-01-01".data) :=
  ⟨by decide,
    c7_round_trip c7Line "a.md".data 0 c7Rec (by decide) (by decide)
      (by decide)⟩

/-- A task line on which the single-pass global tag-stripping creates a new
completion tag inside `cleanDescription`. -/
def c7BadLine : List Char := "- [ ] foo [complet[due: x]ed: 3]".data

unseal stripTags stripCompletionAll in
/-- C7 (counterexample): parsing `- [ ] foo [complet[due: x]ed: 3]` yields no
completion date, but stripping the inner `[due: x]` leaves the description
`foo [completed: 3]`, so re-parsing the reconstruction yields the completion
date `3`: round-trip stability fails on this valid task line. -/
theorem c7_round_trip_counterexample :
    (parseLine c7BadLine 0 "p.md".data).map (fun r => r.completedDate) =
      some none ∧
    ((parseLine c7BadLine 0 "p.md".data).bind
      (fun r => parseLine (reconstructLine r) 0 "p.md".data)).map
      (fun r2 => r2.completedDate) = some (some "3".data) := by
  refine ⟨?_, ?_⟩ <;> decide
